import Mathlib

/-!
Verification of the quickrag incremental indexing pipeline.

Each definition below is a shallow embedding of a function of the
repository (file and symbol named at the definition).  Text is modelled
as `List Char` (the source scans JavaScript strings by character code),
machine numbers as `Nat`/`Int`/`ℚ` with the exact arithmetic the source
performs on them.
-/

namespace QuickRAG

/-! ### Token estimator (src/src/utils/tokens.ts) -/

/-- Whitespace test of `estimateTokens`: the source compares
`charCodeAt` against the codes 32 (space), 9 (tab), 10 (LF),
13 (CR) and 160 (NBSP). -/
def isSpaceCode (c : Char) : Bool :=
  c.toNat == 32 || c.toNat == 9 || c.toNat == 10 || c.toNat == 13 || c.toNat == 160

/-- The word-counting scan of `estimateTokens`: walks the text with an
`inWord` flag, incrementing the count on every transition from
whitespace (or start) into a non-space character. -/
def countWordsGo : Bool → List Char → Nat
  | _, [] => 0
  | inWord, c :: rest =>
    if isSpaceCode c then countWordsGo false rest
    else if inWord then countWordsGo inWord rest
    else 1 + countWordsGo true rest

/-- Embeds `estimateTokens` (src/src/utils/tokens.ts).  The source
computes `avgCharsPerWord = chars / words` in floating point and tests
`> 5`, which is exact iff `5 * words < chars`; `Math.ceil(words * 1.3)`
equals `(13 * words + 9) / 10` in integer arithmetic (the double
rounding of `1.3` never moves `words * 1.3` across an integer for any
representable word count). -/
def estimateTokens (text : List Char) : Nat :=
  let words := countWordsGo false text
  if words = 0 then 0
  else if 5 * words < text.length then (13 * words + 9) / 10
  else words

/-- `estimateTokensBatch` (src/src/utils/tokens.ts): sum of the
estimates. -/
def estimateTokensBatch (texts : List (List Char)) : Nat :=
  (texts.map estimateTokens).sum

/-- Specification-side word count: the number of maximal runs of
non-whitespace characters, written independently of the scan in the
source (each run is counted once and then skipped wholesale). -/
def specWords : List Char → Nat
  | [] => 0
  | c :: rest =>
    if isSpaceCode c then specWords rest
    else 1 + specWords (rest.dropWhile (fun d => !isSpaceCode d))
termination_by l => l.length
decreasing_by
  all_goals simp only [List.length_cons]
  · exact Nat.lt_succ_self _
  · exact Nat.lt_succ_of_le ((List.dropWhile_sublist _).length_le)

/-- Specification-side estimator, following the spec's words: count the
maximal non-whitespace runs, multiply by 1.3 when the average
characters-per-word exceeds 5 (by 1.0 otherwise), round up; 0 for
empty or whitespace-only text. -/
def estimateTokensSpec (text : List Char) : Nat :=
  let words := specWords text
  if words = 0 then 0
  else (⌈(words : ℚ) * (if 5 < (text.length : ℚ) / (words : ℚ) then 13/10 else 1)⌉).toNat

theorem countWordsGo_eq_specWords (l : List Char) :
    countWordsGo false l = specWords l ∧
      countWordsGo true l = specWords (l.dropWhile (fun d => !isSpaceCode d)) := by
  induction l with
  | nil => simp [countWordsGo, specWords]
  | cons c rest ih =>
    by_cases hc : isSpaceCode c
    · constructor
      · rw [countWordsGo, if_pos hc, specWords, if_pos hc, ih.1]
      · rw [countWordsGo, if_pos hc, List.dropWhile_cons]
        simp only [hc, Bool.not_true, Bool.false_eq_true, if_false]
        rw [specWords, if_pos hc, ih.1]
    · constructor
      · rw [countWordsGo, if_neg hc, specWords, if_neg hc, ih.2]
        simp
      · rw [countWordsGo, if_neg hc, if_pos (by trivial), List.dropWhile_cons]
        simp only [hc, Bool.not_false, if_true]
        exact ih.2

theorem ceil_mul_13_div_10 (w : Nat) :
    (⌈(w : ℚ) * (13/10)⌉).toNat = (13 * w + 9) / 10 := by
  set e := (13 * w + 9) / 10 with he
  have h1 : 10 * e ≤ 13 * w + 9 := by omega
  have h3 : 13 * w ≤ 10 * e := by omega
  have h1q : (10 : ℚ) * e ≤ 13 * w + 9 := by exact_mod_cast h1
  have h3q : (13 : ℚ) * w ≤ 10 * e := by exact_mod_cast h3
  have hceil : ⌈(w : ℚ) * (13/10)⌉ = (e : ℤ) := by
    rw [Int.ceil_eq_iff]
    constructor
    · push_cast
      linarith
    · push_cast
      linarith
  rw [hceil]
  exact Int.toNat_natCast _

theorem avg_gt_five_iff (w len : Nat) (hw : 0 < w) :
    (5 : ℚ) < (len : ℚ) / (w : ℚ) ↔ 5 * w < len := by
  rw [lt_div_iff₀ (by exact_mod_cast hw : (0 : ℚ) < (w : ℚ))]
  exact_mod_cast Iff.rfl

/-- C7: `estimateTokens` returns `ceil(words * m)` where `words` is the
number of maximal runs of non-whitespace characters and `m` is 1.3 when
the average characters-per-word exceeds 5 and 1.0 otherwise; empty or
whitespace-only input (zero words) yields 0, and the result is a `Nat`,
hence always a non-negative integer. -/
theorem estimateTokens_eq_spec (text : List Char) :
    estimateTokens text = estimateTokensSpec text := by
  unfold estimateTokens estimateTokensSpec
  rw [(countWordsGo_eq_specWords text).1]
  set w := specWords text with hw
  by_cases h0 : w = 0
  · simp [h0]
  · have hwpos : 0 < w := Nat.pos_of_ne_zero h0
    rw [if_neg h0, if_neg h0]
    by_cases h5 : 5 * w < text.length
    · rw [if_pos h5, if_pos ((avg_gt_five_iff w text.length hwpos).mpr h5),
        ceil_mul_13_div_10]
    · rw [if_neg h5, if_neg (fun hc => h5 ((avg_gt_five_iff w text.length hwpos).mp hc))]
      simp

theorem countWordsGo_true_no_space (l : List Char)
    (h : ∀ c ∈ l, isSpaceCode c = false) : countWordsGo true l = 0 := by
  induction l with
  | nil => rfl
  | cons c rest ih =>
    have hc : isSpaceCode c = false := h c (by simp)
    simp only [countWordsGo, hc, Bool.false_eq_true, if_false, if_true]
    exact ih fun d hd => h d (by simp [hd])

/-- C10: for a non-empty string with no whitespace characters the word
count is 1, so `estimateTokens` is 1 when the string has at most 5
characters and 2 otherwise — bounded by 2 independently of the string's
length. -/
theorem estimateTokens_single_word (text : List Char) (hne : text ≠ [])
    (hns : ∀ c ∈ text, isSpaceCode c = false) :
    estimateTokens text ≤ 2 ∧
      (text.length ≤ 5 → estimateTokens text = 1) ∧
      (5 < text.length → estimateTokens text = 2) := by
  obtain ⟨c, rest, rfl⟩ : ∃ c rest, text = c :: rest := by
    cases text with
    | nil => exact absurd rfl hne
    | cons c rest => exact ⟨c, rest, rfl⟩
  have hwords : countWordsGo false (c :: rest) = 1 := by
    have hc : isSpaceCode c = false := hns c (by simp)
    simp only [countWordsGo, hc, Bool.false_eq_true, if_false,
      countWordsGo_true_no_space rest fun d hd => hns d (by simp [hd])]
  unfold estimateTokens
  rw [hwords]
  by_cases h5 : 5 * 1 < (c :: rest).length
  · simp only [if_neg (by omega : ¬ (1 : ℕ) = 0), if_pos h5]
    refine ⟨by norm_num, fun hle => by omega, fun _ => by norm_num⟩
  · simp only [if_neg (by omega : ¬ (1 : ℕ) = 0), if_neg h5]
    exact ⟨by omega, fun _ => by trivial, fun hlt => by omega⟩

/-- Witness for C10 at the concrete 6-character single word. -/
theorem estimateTokens_single_word_witness :
    ((['q','w','e','r','t','y'] : List Char) ≠ [] ∧
      ∀ c ∈ (['q','w','e','r','t','y'] : List Char), isSpaceCode c = false) ∧
      (estimateTokens ['q','w','e','r','t','y'] ≤ 2 ∧
        ((['q','w','e','r','t','y'] : List Char).length ≤ 5 →
          estimateTokens ['q','w','e','r','t','y'] = 1) ∧
        (5 < (['q','w','e','r','t','y'] : List Char).length →
          estimateTokens ['q','w','e','r','t','y'] = 2)) :=
  ⟨⟨by decide, by decide⟩,
    estimateTokens_single_word ['q','w','e','r','t','y'] (by decide) (by decide)⟩

/-! ### Data model (src/src/chunkers/base.ts, src/src/database.ts) -/

/-- `DocumentChunk` (src/src/chunkers/base.ts). -/
structure DocumentChunk where
  text : List Char
  filePath : List Char
  startLine : Nat
  endLine : Nat
  startChar : Nat
  endChar : Nat
deriving DecidableEq

/-- A chunk paired with its fingerprint, as built by the dedup loop of
`RAGDatabase.indexChunks` (`{ ...chunk, hash }`). -/
structure HashedChunk where
  chunk : DocumentChunk
  hash : List Char
deriving DecidableEq

/-! ### Deduplication (src/src/database.ts, indexChunks lines 219-243)

The SHA-256 fingerprint function is kept abstract (`H`): the dedup loop
only tests set membership of the digest, so every theorem below holds
for the concrete hash as a special case. -/

/-- The dedup loop of `indexChunks`: for each chunk compute its hash;
if it is not in the known-hash set, accept the chunk and add the hash
to the set immediately; otherwise count it as skipped.  The JS `Set` is
modelled by a list with membership semantics. -/
def dedupGo (H : List Char → List Char) :
    List DocumentChunk → List (List Char) →
      List HashedChunk × Nat × List (List Char)
  | [], hashes => ([], 0, hashes)
  | c :: rest, hashes =>
    let h := H c.text
    if h ∈ hashes then
      let r := dedupGo H rest hashes
      (r.1, r.2.1 + 1, r.2.2)
    else
      let r := dedupGo H rest (h :: hashes)
      (⟨c, h⟩ :: r.1, r.2.1, r.2.2)

/-- One indexing run (src/src/indexer.ts lines 129-186): the known-hash
set is seeded once (`ctx.existingHashes`) and the same mutated set is
threaded through the `indexChunks` call of every file. -/
def runDedup (H : List Char → List Char) :
    List (List DocumentChunk) → List (List Char) →
      List HashedChunk × List (List Char)
  | [], hashes => ([], hashes)
  | f :: fs, hashes =>
    let r := dedupGo H f hashes
    let rest := runDedup H fs r.2.2
    (r.1 ++ rest.1, rest.2)

theorem dedupGo_spec (H : List Char → List Char) :
    ∀ (chunks : List DocumentChunk) (hashes : List (List Char)),
      (∀ p ∈ (dedupGo H chunks hashes).1,
        p.hash = H p.chunk.text ∧ p.hash ∉ hashes ∧
          p.hash ∈ (dedupGo H chunks hashes).2.2) ∧
      ((dedupGo H chunks hashes).1.map HashedChunk.hash).Nodup ∧
      (∀ x ∈ hashes, x ∈ (dedupGo H chunks hashes).2.2) := by
  intro chunks
  induction chunks with
  | nil => intro hashes; simp [dedupGo]
  | cons c rest ih =>
    intro hashes
    by_cases hmem : H c.text ∈ hashes
    · simp only [dedupGo, if_pos hmem]
      exact ⟨(ih hashes).1, (ih hashes).2.1, (ih hashes).2.2⟩
    · simp only [dedupGo, if_neg hmem]
      obtain ⟨ha, hn, hsub⟩ := ih (H c.text :: hashes)
      refine ⟨?_, ?_, ?_⟩
      · intro p hp
        rcases List.mem_cons.mp hp with hphead | hptail
        · subst hphead
          exact ⟨rfl, hmem, hsub _ (by simp)⟩
        · obtain ⟨h1, h2, h3⟩ := ha p hptail
          exact ⟨h1, fun hc => h2 (by simp [hc]), h3⟩
      · rw [List.map_cons, List.nodup_cons]
        constructor
        · intro hc
          obtain ⟨p, hp, hph⟩ := List.mem_map.mp hc
          exact (ha p hp).2.1 (by simp [hph])
        · exact hn
      · intro x hx
        exact hsub x (by simp [hx])

/-- C1: across one whole run (the seeded hash set threaded through all
files), every accepted chunk's fingerprint is the hash of its text, it
was absent from the seeded set, and no two accepted chunks of the run
share a fingerprint.  Accepted chunks are exactly those later written
to the store. -/
theorem runDedup_no_duplicate_fingerprints (H : List Char → List Char) :
    ∀ (files : List (List DocumentChunk)) (hashes0 : List (List Char)),
      (∀ p ∈ (runDedup H files hashes0).1,
        p.hash = H p.chunk.text ∧ p.hash ∉ hashes0) ∧
      ((runDedup H files hashes0).1.map HashedChunk.hash).Nodup := by
  have main : ∀ (files : List (List DocumentChunk)) (hashes0 : List (List Char)),
      (∀ p ∈ (runDedup H files hashes0).1,
        p.hash = H p.chunk.text ∧ p.hash ∉ hashes0 ∧
          p.hash ∈ (runDedup H files hashes0).2) ∧
      ((runDedup H files hashes0).1.map HashedChunk.hash).Nodup ∧
      (∀ x ∈ hashes0, x ∈ (runDedup H files hashes0).2) := by
    intro files
    induction files with
    | nil => intro hashes0; simp [runDedup]
    | cons f fs ih =>
      intro hashes0
      obtain ⟨ga, gn, gsub⟩ := dedupGo_spec H f hashes0
      obtain ⟨ra, rn, rsub⟩ := ih (dedupGo H f hashes0).2.2
      refine ⟨?_, ?_, ?_⟩
      · intro p hp
        rcases List.mem_append.mp hp with hpf | hpr
        · obtain ⟨h1, h2, h3⟩ := ga p hpf
          exact ⟨h1, h2, rsub _ h3⟩
        · obtain ⟨h1, h2, h3⟩ := ra p hpr
          exact ⟨h1, fun hc => h2 (gsub _ hc), h3⟩
      · rw [show (runDedup H (f :: fs) hashes0).1 =
            (dedupGo H f hashes0).1 ++ (runDedup H fs (dedupGo H f hashes0).2.2).1
            from rfl, List.map_append, List.nodup_append]
        refine ⟨gn, rn, ?_⟩
        intro x hxg hxr
        obtain ⟨p, hp, hph⟩ := List.mem_map.mp hxg
        obtain ⟨q, hq, hqh⟩ := List.mem_map.mp hxr
        exact (ra q hq).2.1 (hqh ▸ hph ▸ (ga p hp).2.2)
      · intro x hx
        exact rsub x (gsub x hx)
  intro files hashes0
  obtain ⟨h1, h2, _⟩ := main files hashes0
  exact ⟨fun p hp => ⟨(h1 p hp).1, (h1 p hp).2.1⟩, h2⟩

/-! ### Batch planner (src/src/database.ts, indexChunks lines 282-311) -/

/-- The batching limits of `RAGDatabase.batchingConfig`. -/
structure BatchingConfig where
  maxTextsPerBatch : Nat
  maxCharsPerBatch : Nat
  maxTokensPerBatch : Nat
deriving DecidableEq

/-- `BatchInfo` of `indexChunks`. -/
structure BatchInfo where
  batch : List HashedChunk
  batchNum : Nat
  batchTokenCount : Nat
deriving DecidableEq

/-- The inner `while` of the batch-planning loop: keep admitting chunks
while the batch is below `maxTextsPerBatch`; a chunk is admitted when
the batch is empty (unconditionally, by the `batch.length === 0 ||`
short-circuit in the source) or when adding it keeps both running sums
within their limits.  Returns the batch, its token count and the
unconsumed remainder. -/
def fillBatch (cfg : BatchingConfig) :
    List HashedChunk → List HashedChunk → Nat → Nat →
      List HashedChunk × Nat × List HashedChunk
  | [], batch, tok, _ => (batch, tok, [])
  | c :: rest, batch, tok, chr =>
    if batch.length < cfg.maxTextsPerBatch then
      let ct := estimateTokens c.chunk.text
      let cc := c.chunk.text.length
      if batch = [] ∨
          (tok + ct ≤ cfg.maxTokensPerBatch ∧ chr + cc ≤ cfg.maxCharsPerBatch) then
        fillBatch cfg rest (batch ++ [c]) (tok + ct) (chr + cc)
      else (batch, tok, c :: rest)
    else (batch, tok, c :: rest)

theorem fillBatch_consumed (cfg : BatchingConfig) :
    ∀ (rem batch : List HashedChunk) (tok chr : Nat),
      ∃ consumed,
        (fillBatch cfg rem batch tok chr).1 = batch ++ consumed ∧
        rem = consumed ++ (fillBatch cfg rem batch tok chr).2.2 := by
  intro rem
  induction rem with
  | nil => intro batch tok chr; exact ⟨[], by simp [fillBatch]⟩
  | cons c rest ih =>
    intro batch tok chr
    by_cases hlen : batch.length < cfg.maxTextsPerBatch
    · by_cases hadm : batch = [] ∨
          (tok + estimateTokens c.chunk.text ≤ cfg.maxTokensPerBatch ∧
            chr + c.chunk.text.length ≤ cfg.maxCharsPerBatch)
      · obtain ⟨consumed, hc1, hc2⟩ :=
          ih (batch ++ [c]) (tok + estimateTokens c.chunk.text)
            (chr + c.chunk.text.length)
        refine ⟨c :: consumed, ?_, ?_⟩
        · simp only [fillBatch, if_pos hlen, if_pos hadm]
          rw [hc1]
          simp
        · simp only [fillBatch, if_pos hlen, if_pos hadm]
          conv_lhs => rw [hc2]
          simp
      · refine ⟨[], ?_, ?_⟩ <;>
          simp [fillBatch, if_pos hlen, if_neg hadm]
    · refine ⟨[], ?_, ?_⟩ <;> simp [fillBatch, if_neg hlen]

/-- The outer batch-planning loop of `indexChunks`: batches are numbered
from 1; an empty batch (reachable only when `maxTextsPerBatch` is 0,
since an empty batch otherwise admits its first chunk unconditionally)
raises the chunk-too-large error carrying the offending chunk. -/
def planAux (cfg : BatchingConfig) (rem : List HashedChunk) (num : Nat) :
    Except HashedChunk (List BatchInfo) :=
  if hrem : rem = [] then .ok []
  else
    let r := fillBatch cfg rem [] 0 0
    if hb : r.1 = [] then .error (rem.head hrem)
    else
      match planAux cfg r.2.2 (num + 1) with
      | .error e => .error e
      | .ok bs => .ok (⟨r.1, num + 1, r.2.1⟩ :: bs)
termination_by rem.length
decreasing_by
  obtain ⟨consumed, hc1, hc2⟩ := fillBatch_consumed cfg rem [] 0 0
  simp only [List.nil_append] at hc1
  have hcne : consumed ≠ [] := fun hc => hb (by rw [hc1, hc])
  conv_rhs => rw [hc2]
  rw [List.length_append]
  have : 0 < consumed.length := List.length_pos.mpr hcne
  omega

/-- The batch planner of `indexChunks` (chunks are packed starting with
batch number 1). -/
def planBatches (cfg : BatchingConfig) (chunks : List HashedChunk) :
    Except HashedChunk (List BatchInfo) :=
  planAux cfg chunks 0

/-- A concrete 10-character chunk used to exercise the planner. -/
def oversizedChunk : HashedChunk :=
  ⟨⟨("aaaaaaaaaa".toList), ("a.md".toList), 1, 1, 0, 10⟩, ("h0".toList)⟩

/-- C2 (failing evaluation): with `maxCharsPerBatch = 5`, the single
10-character chunk is admitted alone — the planner returns a batch
whose character total (10) exceeds the limit and raises no error,
because the `batch.length === 0 ||` short-circuit admits the first
chunk of every batch unconditionally and makes the too-large throw
unreachable for `maxTextsPerBatch ≥ 1`. -/
theorem planBatches_emits_oversized_batch :
    planBatches ⟨64, 5, 20000⟩ [oversizedChunk] =
        .ok [⟨[oversizedChunk], 1, 2⟩] ∧
      5 < (([oversizedChunk].map fun c => c.chunk.text.length)).sum := by
  constructor
  · simp [planBatches, planAux, fillBatch, oversizedChunk, estimateTokens,
      countWordsGo, isSpaceCode]
  · decide

/-! ### Bisection retry (src/src/database.ts, embedWithRetry lines 67-95) -/

/-- `RAGDatabase.embedWithRetry`: try the whole batch; on failure, if
the retry budget is exhausted or the batch has at most one text,
propagate the failure; otherwise split at the midpoint and retry each
half with the decremented budget, concatenating the results in order. -/
def embedWithRetry {α ε β : Type} (embed : List α → Except ε (List β))
    (texts : List α) (maxRetries : Nat) : Except ε (List β) :=
  match embed texts with
  | .ok v => .ok v
  | .error e =>
    if h : maxRetries = 0 ∨ texts.length ≤ 1 then .error e
    else
      let mid := texts.length / 2
      match embedWithRetry embed (texts.take mid) (maxRetries - 1) with
      | .error e2 => .error e2
      | .ok left =>
        match embedWithRetry embed (texts.drop mid) (maxRetries - 1) with
        | .error e2 => .error e2
        | .ok right => .ok (left ++ right)
termination_by maxRetries
decreasing_by
  all_goals
    have h0 : maxRetries ≠ 0 := fun hc => h (Or.inl hc)
    omega

theorem embedWithRetry_of_ok {α ε β : Type} (embed : List α → Except ε (List β))
    (texts : List α) (r : Nat) (v : List β) (hv : embed texts = .ok v) :
    embedWithRetry embed texts r = .ok v := by
  unfold embedWithRetry
  rw [hv]

/-- C3 (amended): with an embed backend that succeeds exactly on inputs
of at most `K` texts (returning one vector per text in order) and fails
on larger inputs, `embedWithRetry` with budget `r` returns the complete
in-order vector list provided the batch has at most `K * 2 ^ r` texts
(for the executor's budget 3: at most `8 * K` texts).  Beyond that the
bisection depth is insufficient and the failure propagates, refuting
the claim's unrestricted "for any K ≥ 1". -/
theorem embedWithRetry_complete {α ε β : Type}
    (embed : List α → Except ε (List β)) (f : α → β) (K : Nat) (hK : 1 ≤ K)
    (hok : ∀ ts : List α, ts.length ≤ K → embed ts = .ok (ts.map f))
    (hfail : ∀ ts : List α, K < ts.length → ∃ e, embed ts = .error e) :
    ∀ (r : Nat) (texts : List α), texts.length ≤ K * 2 ^ r →
      embedWithRetry embed texts r = .ok (texts.map f) := by
  intro r
  induction r with
  | zero =>
    intro texts hlen
    exact embedWithRetry_of_ok embed texts 0 _
      (hok texts (by simpa using hlen))
  | succ r ih =>
    intro texts hlen
    by_cases hsmall : texts.length ≤ K
    · exact embedWithRetry_of_ok embed texts (r + 1) _ (hok texts hsmall)
    · have hbig : K < texts.length := Nat.lt_of_not_le hsmall
      obtain ⟨e, he⟩ := hfail texts hbig
      have h2 : 2 ≤ texts.length := by omega
      have hcond : ¬ (r + 1 = 0 ∨ texts.length ≤ 1) := by omega
      have hpow : texts.length ≤ 2 * (K * 2 ^ r) := by
        calc texts.length ≤ K * 2 ^ (r + 1) := hlen
          _ = 2 * (K * 2 ^ r) := by ring
      have ihl := ih (texts.take (texts.length / 2))
        (by rw [List.length_take]; exact le_trans (min_le_left _ _) (by omega))
      have ihr := ih (texts.drop (texts.length / 2))
        (by rw [List.length_drop]; omega)
      conv_lhs => rw [embedWithRetry.eq_def]
      rw [he]
      simp only [dif_neg hcond, Nat.add_sub_cancel, ihl, ihr]
      rw [← List.map_append, List.take_append_drop]

/-- The K = 1 mock backend: succeeds on at most one text (returning one
vector per text, in order), fails on anything larger. -/
def mockEmbedOne (ts : List Nat) : Except Nat (List Nat) :=
  if ts.length ≤ 1 then .ok (ts.map fun t => t + 1) else .error 0

/-- C3 (counterexample): for K = 1 and a batch of 9 texts (9 > K), the
executor's retry budget of 3 is exhausted before bisection reaches
singleton inputs, so `embedWithRetry` propagates the failure instead of
returning a complete vector list. -/
theorem embedWithRetry_nine_texts_fails :
    embedWithRetry mockEmbedOne [0, 1, 2, 3, 4, 5, 6, 7, 8] 3 = .error 0 ∧
      1 < ([0, 1, 2, 3, 4, 5, 6, 7, 8] : List Nat).length := by
  constructor
  · simp [embedWithRetry, mockEmbedOne]
  · decide

/-- The K = 2 mock backend. -/
def mockEmbedTwo (ts : List Nat) : Except Nat (List Nat) :=
  if ts.length ≤ 2 then .ok (ts.map fun t => t + 1) else .error 0

/-- Witness for C3 (amended) at K = 2 with a batch of 16 = 8·K texts and
budget 3. -/
theorem embedWithRetry_complete_witness :
    embedWithRetry mockEmbedTwo
        [0, 1, 2, 3, 4, 5, 6, 7, 8, 9, 10, 11, 12, 13, 14, 15] 3 =
      .ok (([0, 1, 2, 3, 4, 5, 6, 7, 8, 9, 10, 11, 12, 13, 14, 15] :
        List Nat).map fun t => t + 1) :=
  embedWithRetry_complete mockEmbedTwo (fun t => t + 1) 2 (by decide)
    (fun ts h => by simp [mockEmbedTwo, h])
    (fun ts h => ⟨0, by
      simp only [mockEmbedTwo, if_neg (show ¬ ts.length ≤ 2 by omega)]⟩)
    3 _ (by decide)



/-! ### Concurrency-bounded executor: result collection and merge
(src/src/database.ts, indexChunks lines 315-363) -/

/-- `IndexedChunk` (src/src/database.ts), polymorphic in the vector
type. -/
structure IndexedChunk (β : Type) where
  id : List Char
  text : List Char
  filePath : List Char
  startLine : Nat
  endLine : Nat
  startChar : Nat
  endChar : Nat
  vector : β
  hash : List Char
deriving DecidableEq

/-- Builds the `IndexedChunk` record of the merge loop; the identity key
is `filePath:startLine:endLine`. -/
def mkIndexedChunk {β : Type} (hc : HashedChunk) (v : β) : IndexedChunk β :=
  { id := hc.chunk.filePath ++ ':' :: (Nat.repr hc.chunk.startLine).toList ++
      ':' :: (Nat.repr hc.chunk.endLine).toList
    text := hc.chunk.text
    filePath := hc.chunk.filePath
    startLine := hc.chunk.startLine
    endLine := hc.chunk.endLine
    startChar := hc.chunk.startChar
    endChar := hc.chunk.endChar
    vector := v
    hash := hc.hash }

/-- An entry of `batchResults`: a completed batch together with its
embeddings. -/
structure BatchResult (β : Type) where
  batchInfo : BatchInfo
  embeddings : List β
deriving DecidableEq

/-- The result a batch contributes on completion when the embedding
backend is deterministic (`f` per text, one vector per text in
order). -/
def mkBatchResult {β : Type} (f : List Char → β) (b : BatchInfo) : BatchResult β :=
  ⟨b, b.batch.map fun hc => f hc.chunk.text⟩

/-- `batchResults.sort((a, b) => a.batchInfo.batchNum - b.batchInfo.batchNum)`. -/
def sortResults {β : Type} (rs : List (BatchResult β)) : List (BatchResult β) :=
  rs.mergeSort fun a b => decide (a.batchInfo.batchNum ≤ b.batchInfo.batchNum)

/-- The merge loop: for each batch result in sorted order, pair each
chunk of the batch with its embedding (`embeddings[j]`) in order. -/
def mergeResults {β : Type} (rs : List (BatchResult β)) : List (IndexedChunk β) :=
  rs.flatMap fun r => List.zipWith mkIndexedChunk r.batchInfo.batch r.embeddings

theorem planAux_batches_spec (cfg : BatchingConfig) :
    ∀ (fuel : Nat) (rem : List HashedChunk), rem.length ≤ fuel →
      ∀ (num : Nat) (bs : List BatchInfo), planAux cfg rem num = .ok bs →
        (bs.map BatchInfo.batch).flatten = rem ∧
          bs.map BatchInfo.batchNum = List.range' (num + 1) bs.length := by
  intro fuel
  induction fuel with
  | zero =>
    intro rem hlen num bs h
    have hrem : rem = [] := List.length_eq_zero.mp (Nat.le_zero.mp hlen)
    subst hrem
    rw [planAux, dif_pos rfl] at h
    cases h
    simp
  | succ fuel ih =>
    intro rem hlen num bs h
    by_cases hrem : rem = []
    · subst hrem
      rw [planAux, dif_pos rfl] at h
      cases h
      simp
    · rw [planAux, dif_neg hrem] at h

      by_cases hb : (fillBatch cfg rem [] 0 0).1 = []
      · rw [dif_pos hb] at h
        cases h
      · rw [dif_neg hb] at h
        obtain ⟨consumed, hc1, hc2⟩ := fillBatch_consumed cfg rem [] 0 0
        simp only [List.nil_append] at hc1
        have hcne : consumed ≠ [] := fun hc => hb (by rw [hc1, hc])
        have hrest : (fillBatch cfg rem [] 0 0).2.2.length ≤ fuel := by
          have h1 : 0 < consumed.length := List.length_pos.mpr hcne
          have h2 := congrArg List.length hc2
          rw [List.length_append] at h2
          omega
        cases hres : planAux cfg (fillBatch cfg rem [] 0 0).2.2 (num + 1) with
        | error e => rw [hres] at h; cases h
        | ok bs' =>
          rw [hres] at h
          cases h
          obtain ⟨hj, hn⟩ := ih _ hrest _ _ hres
          constructor
          · simp only [List.map_cons, List.flatten_cons, hj, hc1]
            rw [← hc2]
          · simp only [List.map_cons, hn, List.length_cons, List.range'_succ]

theorem zipWith_mkIndexedChunk_map {β : Type} (f : List Char → β)
    (l : List HashedChunk) :
    List.zipWith mkIndexedChunk l (l.map fun hc => f hc.chunk.text) =
      l.map fun hc => mkIndexedChunk hc (f hc.chunk.text) := by
  induction l with
  | nil => rfl
  | cons c rest ih => simp [ih]

theorem sortResults_sorted {β : Type} (rs : List (BatchResult β)) :
    List.Pairwise
      (fun a b : BatchResult β => a.batchInfo.batchNum ≤ b.batchInfo.batchNum)
      (sortResults rs) := by
  have h := @List.sorted_mergeSort (BatchResult β)
    (fun a b : BatchResult β =>
      decide (a.batchInfo.batchNum ≤ b.batchInfo.batchNum))
    (fun a b c hab hbc => by
      simp only [decide_eq_true_eq] at hab hbc ⊢
      omega)
    (fun a b => by
      simp only [Bool.or_eq_true, decide_eq_true_eq]
      omega)
    rs
  exact h.imp fun hab => by simpa using hab

theorem pairwise_lt_of_le_nodup {β : Type} (l : List (BatchResult β))
    (hle : List.Pairwise
      (fun a b : BatchResult β => a.batchInfo.batchNum ≤ b.batchInfo.batchNum) l)
    (hnd : (l.map fun r => r.batchInfo.batchNum).Nodup) :
    List.Pairwise
      (fun a b : BatchResult β => a.batchInfo.batchNum < b.batchInfo.batchNum) l := by
  induction l with
  | nil => exact List.Pairwise.nil
  | cons r rest ih =>
    rw [List.pairwise_cons] at hle ⊢
    rw [List.map_cons, List.nodup_cons] at hnd
    refine ⟨fun b hb => ?_, ih hle.2 hnd.2⟩
    have hne : r.batchInfo.batchNum ≠ b.batchInfo.batchNum := by
      intro hc
      exact hnd.1 (hc ▸ List.mem_map_of_mem (fun x => x.batchInfo.batchNum) hb)
    exact lt_of_le_of_ne (hle.1 b hb) hne

instance {β : Type} :
    IsAntisymm (BatchResult β)
      (fun a b => a.batchInfo.batchNum < b.batchInfo.batchNum) :=
  ⟨fun _ _ h1 h2 => absurd (lt_trans h1 h2) (lt_irrefl _)⟩

/-- C4: for every run of the batch planner and every completion order of
the batch results (any permutation of the deterministic per-batch
results), re-sorting by batch number and merging yields the same final
`IndexedChunk` sequence: the input chunks in their original order, each
paired with its own embedding. -/
theorem indexChunks_order_deterministic {β : Type} (f : List Char → β)
    (cfg : BatchingConfig) (chunks : List HashedChunk)
    (batches : List BatchInfo) (results : List (BatchResult β))
    (hplan : planBatches cfg chunks = .ok batches)
    (hperm : results.Perm (batches.map (mkBatchResult f))) :
    mergeResults (sortResults results) =
      chunks.map fun hc => mkIndexedChunk hc (f hc.chunk.text) := by
  obtain ⟨hjoin, hnums⟩ :=
    planAux_batches_spec cfg chunks.length chunks (le_refl _) 0 batches hplan
  have hkeys : (batches.map (mkBatchResult f)).map
      (fun r => r.batchInfo.batchNum) = batches.map BatchInfo.batchNum := by
    rw [List.map_map]
    rfl
  have hnodup : ((batches.map (mkBatchResult f)).map
      (fun r => r.batchInfo.batchNum)).Nodup := by
    rw [hkeys, hnums]
    exact List.nodup_range' _ _
  have hcanon_lt : List.Pairwise
      (fun a b : BatchResult β => a.batchInfo.batchNum < b.batchInfo.batchNum)
      (batches.map (mkBatchResult f)) := by
    have hchain : List.Pairwise (· < ·)
        ((batches.map (mkBatchResult f)).map fun r => r.batchInfo.batchNum) := by
      rw [hkeys, hnums]
      exact List.pairwise_lt_range' _ _
    exact (List.pairwise_map.mp hchain)
  have hsortperm : (sortResults results).Perm (batches.map (mkBatchResult f)) :=
    (List.mergeSort_perm results _).trans hperm
  have hsort_lt : List.Pairwise
      (fun a b : BatchResult β => a.batchInfo.batchNum < b.batchInfo.batchNum)
      (sortResults results) := by
    refine pairwise_lt_of_le_nodup _ (sortResults_sorted results) ?_
    have := hsortperm.map fun r : BatchResult β => r.batchInfo.batchNum
    exact (this.nodup_iff).mpr hnodup
  have heq : sortResults results = batches.map (mkBatchResult f) :=
    List.eq_of_perm_of_sorted hsortperm hsort_lt hcanon_lt
  rw [heq]
  unfold mergeResults
  rw [← hjoin]
  clear hnums hkeys hnodup hcanon_lt hsortperm hsort_lt heq hplan hperm hjoin
  induction batches with
  | nil => rfl
  | cons b rest ih =>
    simp only [List.map_cons, List.flatMap_cons, List.flatten_cons, List.map_append, ih]
    rw [show (mkBatchResult f b).embeddings =
        b.batch.map (fun hc => f hc.chunk.text) from rfl,
      show (mkBatchResult f b).batchInfo = b from rfl,
      zipWith_mkIndexedChunk_map]

/-- Concrete chunks for the C4 witness. -/
def c4Chunk1 : HashedChunk := ⟨⟨['a'], ("f.md".toList), 1, 1, 0, 1⟩, ("h1".toList)⟩

def c4Chunk2 : HashedChunk := ⟨⟨['b'], ("f.md".toList), 1, 1, 1, 2⟩, ("h2".toList)⟩

def c4Chunk3 : HashedChunk := ⟨⟨['c'], ("f.md".toList), 1, 1, 2, 3⟩, ("h3".toList)⟩

/-- The two batches the planner produces for the C4 witness input with
`maxTextsPerBatch = 2`. -/
def c4Batches : List BatchInfo :=
  [⟨[c4Chunk1, c4Chunk2], 1, 2⟩, ⟨[c4Chunk3], 2, 1⟩]

/-- Witness for C4: the two batch results completing in reversed order
still merge to the chunks in original order. -/
theorem indexChunks_order_deterministic_witness :
    mergeResults (sortResults
        ((c4Batches.map (mkBatchResult fun t => t.length)).reverse)) =
      [c4Chunk1, c4Chunk2, c4Chunk3].map
        fun hc => mkIndexedChunk hc hc.chunk.text.length :=
  indexChunks_order_deterministic (fun t => t.length) ⟨2, 100, 100⟩
    [c4Chunk1, c4Chunk2, c4Chunk3] c4Batches _
    (by simp [planBatches, planAux, fillBatch, c4Chunk1, c4Chunk2, c4Chunk3,
      c4Batches, estimateTokens, countWordsGo, isSpaceCode])
    (List.reverse_perm _)

/-! ### ConcurrencyLimiter (src/unnamed/part_007 lines 752-797,
src/src/utils/concurrency.ts)

The limiter is single-threaded event-loop code: `execute` either starts
the task at once (when `active < maxConcurrent`) or appends it to the
wait queue; when a task finishes, `active` is decremented and, if the
queue is non-empty, its head is shifted off and started (incrementing
`active` again) — one atomic step per event.  States are modelled
explicitly; `queuedLog`/`admitted` record the order in which tasks were
queued and later admitted from the queue. -/

structure LimState where
  maxC : Nat
  active : Nat
  queue : List Nat
  queuedLog : List Nat
  admitted : List Nat
deriving DecidableEq

/-- One event-loop step of the limiter. -/
inductive LimStep : LimState → LimState → Prop
  | submitRun (s : LimState) (t : Nat) (h : s.active < s.maxC) :
      LimStep s { s with active := s.active + 1 }
  | submitQueue (s : LimState) (t : Nat) (h : ¬ s.active < s.maxC) :
      LimStep s { s with queue := s.queue ++ [t], queuedLog := s.queuedLog ++ [t] }
  | completeIdle (s : LimState) (h : 0 < s.active) (hq : s.queue = []) :
      LimStep s { s with active := s.active - 1 }
  | completeAdmit (s : LimState) (t : Nat) (rest : List Nat)
      (h : 0 < s.active) (hq : s.queue = t :: rest) :
      LimStep s { s with queue := rest, admitted := s.admitted ++ [t] }

/-- Reachability from the freshly constructed limiter (the constructor
rejects `maxConcurrent < 1`). -/
inductive LimReach (maxC : Nat) : LimState → Prop
  | init (h : 1 ≤ maxC) : LimReach maxC ⟨maxC, 0, [], [], []⟩
  | step (s s' : LimState) (hs : LimReach maxC s) (hstep : LimStep s s') :
      LimReach maxC s'

/-- C9: in every reachable limiter state the number of tasks currently
executing never exceeds `maxConcurrent`, and queued tasks are admitted
in FIFO order: the log of queued tasks always equals the admitted tasks
(in admission order) followed by the tasks still waiting (in queue
order). -/
theorem concurrencyLimiter_invariant (maxC : Nat) (s : LimState)
    (h : LimReach maxC s) :
    s.active ≤ s.maxC ∧ s.queuedLog = s.admitted ++ s.queue := by
  induction h with
  | init h => exact ⟨Nat.zero_le _, rfl⟩
  | step s s' hs hstep ih =>
    cases hstep with
    | submitRun t hlt => exact ⟨hlt, ih.2⟩
    | submitQueue t hge =>
      refine ⟨ih.1, ?_⟩
      simp only [ih.2, List.append_assoc]
    | completeIdle hpos hq =>
      refine ⟨?_, ih.2⟩
      have := ih.1
      simp only []
      omega
    | completeAdmit t rest hpos hq =>
      refine ⟨ih.1, ?_⟩
      simp only [ih.2, hq, List.append_assoc, List.singleton_append]

/-- Witness for C9: a concrete reachable state of a limiter with
`maxConcurrent = 1` after running one task, queueing a second and
admitting it when the first completes. -/
theorem concurrencyLimiter_invariant_witness :
    (⟨1, 1, [], [7], [7]⟩ : LimState).active ≤
        (⟨1, 1, [], [7], [7]⟩ : LimState).maxC ∧
      (⟨1, 1, [], [7], [7]⟩ : LimState).queuedLog =
        (⟨1, 1, [], [7], [7]⟩ : LimState).admitted ++
          (⟨1, 1, [], [7], [7]⟩ : LimState).queue :=
  concurrencyLimiter_invariant 1 _
    (LimReach.step _ _
      (LimReach.step _ _
        (LimReach.step _ _ (LimReach.init (by decide))
          (LimStep.submitRun _ 5 (by decide)))
        (LimStep.submitQueue _ 7 (by decide)))
      (LimStep.completeAdmit _ 7 [] (by decide) rfl))

/-! ### Configuration validation (src/src/parser.ts lines 23-33,
src/unnamed/part_000 lines 107-118) -/

inductive ConfigError
  | chunkSizeNotPositive
  | chunkOverlapNegative
  | overlapNotLessThanSize
deriving DecidableEq

/-- `ChunkingOptions` of src/src/parser.ts (CLI integers, so `Int`). -/
structure ChunkingOptionsInt where
  chunkSize : Int
  chunkOverlap : Int
deriving DecidableEq

/-- `validateChunkingOptions` (src/src/parser.ts lines 23-33): called by
`parseDirectory` before any file is read. -/
def validateChunkingOptions (o : ChunkingOptionsInt) : Except ConfigError Unit :=
  if o.chunkSize ≤ 0 then .error .chunkSizeNotPositive
  else if o.chunkOverlap < 0 then .error .chunkOverlapNegative
  else if o.chunkSize ≤ o.chunkOverlap then .error .overlapNotLessThanSize
  else .ok ()

inductive CliError
  | chunkSizeNotPositive
  | chunkOverlapNegative
  | minChunkSizeNotPositive
  | minChunkSizeNotLessThanSize
deriving DecidableEq

/-- The validation block of the CLI `index` action (src/unnamed/part_000
lines 107-118): the only configuration gate of the current pipeline
(the listr `indexDirectory` never calls `validateChunkingOptions`).
Note it has no `chunkOverlap < chunkSize` check. -/
def cliValidateIndexOptions (chunkSize chunkOverlap minChunkSize : Int) :
    Except CliError Unit :=
  if chunkSize ≤ 0 then .error .chunkSizeNotPositive
  else if chunkOverlap < 0 then .error .chunkOverlapNegative
  else if minChunkSize ≤ 0 then .error .minChunkSizeNotPositive
  else if chunkSize ≤ minChunkSize then .error .minChunkSizeNotLessThanSize
  else .ok ()

/-- C8 (amended): `validateChunkingOptions` — the gate of the
`parseDirectory`-based pipeline — does reject every configuration with
`chunkOverlap ≥ chunkSize` before any work. -/
theorem validateChunkingOptions_rejects_overlap (o : ChunkingOptionsInt)
    (h : o.chunkSize ≤ o.chunkOverlap) :
    ∃ e, validateChunkingOptions o = .error e := by
  unfold validateChunkingOptions
  by_cases h1 : o.chunkSize ≤ 0
  · exact ⟨_, by rw [if_pos h1]⟩
  · by_cases h2 : o.chunkOverlap < 0
    · exact ⟨_, by rw [if_neg h1, if_pos h2]⟩
    · exact ⟨_, by rw [if_neg h1, if_neg h2, if_pos h]⟩

/-- Witness for C8 (amended) at chunkSize 500, chunkOverlap 600. -/
theorem validateChunkingOptions_rejects_overlap_witness :
    (500 : Int) ≤ 600 ∧
      ∃ e, validateChunkingOptions ⟨500, 600⟩ = .error e :=
  ⟨by decide, validateChunkingOptions_rejects_overlap ⟨500, 600⟩ (by decide)⟩

/-! ### JavaScript string primitives used by the chunkers -/

/-- The JavaScript `\s` / `trim()` whitespace class (ASCII whitespace,
NBSP, BOM and the Unicode space separators). -/
def isJsWhitespace (c : Char) : Bool :=
  c.toNat == 32 || c.toNat == 9 || c.toNat == 10 || c.toNat == 13 ||
  c.toNat == 11 || c.toNat == 12 || c.toNat == 160 || c.toNat == 0xfeff ||
  c.toNat == 0x1680 || (0x2000 ≤ c.toNat && c.toNat ≤ 0x200a) ||
  c.toNat == 0x2028 || c.toNat == 0x2029 || c.toNat == 0x202f ||
  c.toNat == 0x205f || c.toNat == 0x3000

/-- `String.prototype.trim`: strip leading and trailing whitespace. -/
def jsTrim (l : List Char) : List Char :=
  ((l.dropWhile isJsWhitespace).reverse.dropWhile isJsWhitespace).reverse

/-- Prepends a character to the first piece of a split (the piece list
is never empty, so the first arm is unreachable). -/
def consHead (c : Char) : List (List Char) → List (List Char)
  | [] => [[c]]
  | p :: ps => (c :: p) :: ps

/-- The scanning core of `String.prototype.split` for a non-empty
separator: at each position, a separator occurrence ends the current
piece and is skipped; otherwise the character joins the current piece. -/
def splitGo (s : List Char) : List Char → List (List Char)
  | [] => [[]]
  | c :: rest =>
    if h : s ≠ [] ∧ s = (c :: rest).take s.length then
      [] :: splitGo s ((c :: rest).drop s.length)
    else
      consHead c (splitGo s rest)
termination_by l => l.length
decreasing_by
  · rw [List.length_drop]
    have hs : 0 < s.length := List.length_pos.mpr h.1
    simp only [List.length_cons]
    omega
  · simp only [List.length_cons]
    omega

/-- `text.split(separator)` (splitBySeparator in
src/unnamed/part_003): the empty separator splits into single
characters. -/
def jsSplit (s l : List Char) : List (List Char) :=
  if s = [] then l.map fun c => [c] else splitGo s l

/-- Joining with a separator: the left inverse of `jsSplit`. -/
def joinSep (s : List Char) : List (List Char) → List Char
  | [] => []
  | [p] => p
  | p :: ps => p ++ s ++ joinSep s ps

theorem joinSep_cons_of_ne (s : List Char) (p : List Char)
    (ps : List (List Char)) (h : ps ≠ []) :
    joinSep s (p :: ps) = p ++ s ++ joinSep s ps := by
  cases ps with
  | nil => exact absurd rfl h
  | cons q qs => rfl

theorem consHead_ne_nil (c : Char) (xs : List (List Char)) :
    consHead c xs ≠ [] := by
  cases xs with
  | nil => exact List.cons_ne_nil _ _
  | cons p ps => exact List.cons_ne_nil _ _

theorem splitGo_ne_nil (s : List Char) : ∀ l : List Char, splitGo s l ≠ [] := by
  intro l
  cases l with
  | nil => rw [splitGo]; exact List.cons_ne_nil _ _
  | cons c rest =>
    rw [splitGo]
    by_cases h : s ≠ [] ∧ s = (c :: rest).take s.length
    · rw [dif_pos h]
      exact List.cons_ne_nil _ _
    · rw [dif_neg h]
      exact consHead_ne_nil _ _

theorem joinSep_consHead (s : List Char) (c : Char) (xs : List (List Char))
    (hne : xs ≠ []) :
    joinSep s (consHead c xs) = c :: joinSep s xs := by
  cases xs with
  | nil => exact absurd rfl hne
  | cons p ps =>
    cases ps with
    | nil => rfl
    | cons q qs => rfl

theorem joinSep_splitGo (s : List Char) : ∀ l : List Char,
    joinSep s (splitGo s l) = l := by
  intro l
  generalize hl : l.length = n
  induction n using Nat.strong_induction_on generalizing l with
  | _ n ih =>
    cases l with
    | nil => rw [splitGo]; rfl
    | cons c rest =>
      rw [splitGo]
      by_cases h : s ≠ [] ∧ s = (c :: rest).take s.length
      · rw [dif_pos h]
        have hs : 0 < s.length := List.length_pos.mpr h.1
        have hdrop : ((c :: rest).drop s.length).length < (c :: rest).length := by
          rw [List.length_drop]
          simp only [List.length_cons]
          omega
        have hrec := ih _ (hl ▸ hdrop) _ rfl
        rw [joinSep_cons_of_ne s [] _ (splitGo_ne_nil s _), hrec]
        simp only [List.nil_append]
        conv_rhs => rw [← List.take_append_drop s.length (c :: rest)]
        rw [← h.2]
      · rw [dif_neg h]
        have hrec := ih rest.length (by simp [← hl]) rest rfl
        rw [joinSep_consHead s c _ (splitGo_ne_nil s rest), hrec]

theorem joinSep_jsSplit (s : List Char) (l : List Char) :
    joinSep s (jsSplit s l) = l := by
  unfold jsSplit
  by_cases hs : s = []
  · rw [if_pos hs]
    subst hs
    induction l with
    | nil => rfl
    | cons c rest ih =>
      cases rest with
      | nil => rfl
      | cons d ds =>
        rw [List.map_cons, joinSep_cons_of_ne [] [c] _ (by simp), ih]
        rfl
  · rw [if_neg hs]
    exact joinSep_splitGo s l

/-! ### Recursive token chunker: trySplit grouping
(src/unnamed/part_003, RecursiveTokenChunker) -/

/-- Total character count of a list of pieces. -/
def sumLens (gs : List (List Char)) : Nat := (gs.map List.length).sum

theorem sumLens_append (a b : List (List Char)) :
    sumLens (a ++ b) = sumLens a + sumLens b := by
  simp [sumLens]

theorem joinSep_length_cons (s x : List Char) (xs : List (List Char)) :
    (joinSep s (x :: xs)).length =
      x.length + (if xs = [] then 0 else s.length + (joinSep s xs).length) := by
  cases xs with
  | nil => simp [joinSep]
  | cons q qs =>
    rw [joinSep_cons_of_ne _ _ _ (by simp)]
    simp only [List.length_append, if_neg (by simp : ¬ (q :: qs) = [])]
    omega

/-- The greedy re-accumulation of split pieces in `trySplit`: build the
current group while its estimated tokens stay within budget; on
overflow, push the current group (when non-empty) and restart from the
overflowing piece, or push the piece itself when the current group is
empty.  The candidate `currentChunk + (currentChunk ? separator : "") +
split` of the source is `p` itself when the current group is empty. -/
def accumGo (s : List Char) (target : Nat) :
    List (List Char) → List (List Char) → List Char → List (List Char)
  | [], groups, current => groups ++ (if current = [] then [] else [current])
  | p :: rest, groups, current =>
    let test := if current = [] then p else current ++ s ++ p
    if estimateTokens test ≤ target then accumGo s target rest groups test
    else if current = [] then accumGo s target rest (groups ++ [p]) []
    else accumGo s target rest (groups ++ [current]) p

theorem estimateTokens_nil : estimateTokens [] = 0 := rfl

theorem accumGo_mem_ne_nil (s : List Char) (target : Nat) :
    ∀ (splits groups : List (List Char)) (current : List Char),
      (∀ g ∈ groups, g ≠ []) →
        ∀ g ∈ accumGo s target splits groups current, g ≠ [] := by
  intro splits
  induction splits with
  | nil =>
    intro groups current hg g hmem
    rw [accumGo] at hmem
    by_cases hc : current = []
    · rw [if_pos hc, List.append_nil] at hmem
      exact hg g hmem
    · rw [if_neg hc] at hmem
      rcases List.mem_append.mp hmem with hmem | hmem
      · exact hg g hmem
      · rw [List.mem_singleton.mp hmem]
        exact hc
  | cons p rest ih =>
    intro groups current hg g hmem
    rw [accumGo] at hmem
    by_cases hc : current = []
    · rw [if_pos hc] at hmem
      by_cases hacc : estimateTokens p ≤ target
      · rw [if_pos hacc] at hmem
        exact ih groups p hg g hmem
      · rw [if_neg hacc, if_pos hc] at hmem
        have hp : p ≠ [] := by
          intro hpe
          exact hacc (by rw [hpe, estimateTokens_nil]; omega)
        refine ih (groups ++ [p]) [] (fun x hx => ?_) g hmem
        rcases List.mem_append.mp hx with hx | hx
        · exact hg x hx
        · rw [List.mem_singleton.mp hx]; exact hp
    · rw [if_neg hc] at hmem
      by_cases hacc : estimateTokens (current ++ s ++ p) ≤ target
      · rw [if_pos hacc] at hmem
        exact ih groups _ hg g hmem
      · rw [if_neg hacc, if_neg hc] at hmem
        refine ih (groups ++ [current]) p (fun x hx => ?_) g hmem
        rcases List.mem_append.mp hx with hx | hx
        · exact hg x hx
        · rw [List.mem_singleton.mp hx]; exact hc

theorem accumGo_sumLens_le (s : List Char) (target : Nat) :
    ∀ (splits groups : List (List Char)) (current : List Char),
      sumLens (accumGo s target splits groups current) ≤
        sumLens groups +
          (joinSep s (if current = [] then splits else current :: splits)).length := by
  intro splits
  induction splits with
  | nil =>
    intro groups current
    rw [accumGo]
    by_cases hc : current = []
    · simp only [if_pos hc, List.append_nil]
      simp [joinSep]
    · simp only [if_neg hc, sumLens_append]
      simp [sumLens, joinSep]
  | cons p rest ih =>
    intro groups current
    rw [accumGo]
    by_cases hc : current = []
    · simp only [if_pos hc]
      by_cases hacc : estimateTokens p ≤ target
      · simp only [if_pos hacc]
        refine le_trans (ih groups p) ?_
        by_cases hp : p = []
        · simp only [if_pos hp, hp, eq_self_iff_true, if_true]
          rw [joinSep_length_cons s [] rest]
          by_cases hr : rest = []
          · subst hr; simp [joinSep]
          · simp only [if_neg hr]; omega
        · simp only [if_neg hp]
          exact le_refl _
      · simp only [if_neg hacc]
        refine le_trans (ih (groups ++ [p]) []) ?_
        have hnil : (if ([] : List Char) = [] then rest else [] :: rest) = rest :=
          if_pos rfl
        rw [hnil, sumLens_append, joinSep_length_cons s p rest]
        have hone : sumLens [p] = p.length := by simp [sumLens]
        rw [hone]
        by_cases hr : rest = []
        · subst hr; simp [joinSep]
        · simp only [if_neg hr]; omega
    · simp only [if_neg hc]
      by_cases hacc : estimateTokens (current ++ s ++ p) ≤ target
      · simp only [if_pos hacc]
        refine le_trans (ih groups (current ++ s ++ p)) ?_
        have htest : ¬ current ++ s ++ p = [] := by simp [hc]
        simp only [if_neg htest]
        rw [joinSep_length_cons s (current ++ s ++ p) rest,
          joinSep_length_cons s current (p :: rest),
          joinSep_length_cons s p rest]
        simp only [List.length_append, if_neg (show ¬ (p :: rest) = [] by simp)]
        by_cases hr : rest = []
        · simp only [if_pos hr]; omega
        · simp only [if_neg hr]; omega
      · simp only [if_neg hacc]
        refine le_trans (ih (groups ++ [current]) p) ?_
        rw [sumLens_append, joinSep_length_cons s current (p :: rest)]
        simp only [if_neg (show ¬ (p :: rest) = [] by simp)]
        have hone : sumLens [current] = current.length := by simp [sumLens]
        rw [hone]
        by_cases hp : p = []
        · simp only [if_pos hp, hp, eq_self_iff_true, if_true]
          rw [joinSep_length_cons s [] rest]
          by_cases hr : rest = []
          · subst hr; simp [joinSep]
          · simp only [if_neg hr]; omega
        · simp only [if_neg hp]
          rw [joinSep_length_cons s p rest]
          by_cases hr : rest = []
          · simp only [if_pos hr]; omega
          · simp only [if_neg hr]; omega

/-- Any member of a family of at least two non-empty pieces is strictly
shorter than the total. -/
theorem mem_length_lt_sumLens (gs : List (List Char)) (h2 : 2 ≤ gs.length)
    (hne : ∀ g ∈ gs, g ≠ []) (g : List Char) (hg : g ∈ gs) :
    g.length < sumLens gs := by
  obtain ⟨l1, l2, rfl⟩ := List.append_of_mem hg
  have hsum : sumLens (l1 ++ g :: l2) = sumLens l1 + g.length + sumLens l2 := by
    simp [sumLens]
    omega
  have hother : 1 ≤ sumLens l1 + sumLens l2 := by
    cases l1 with
    | cons q qs =>
      have hq1 : 1 ≤ q.length := List.length_pos.mpr (hne q (by simp))
      have hs : sumLens (q :: qs) = q.length + sumLens qs := by simp [sumLens]
      omega
    | nil =>
      cases l2 with
      | nil => simp at h2
      | cons r rs =>
        have hr1 : 1 ≤ r.length := List.length_pos.mpr (hne r (by simp))
        have hs : sumLens (r :: rs) = r.length + sumLens rs := by simp [sumLens]
        omega
  omega

/-- The separator ladder of `recursiveSplit`, coarse to fine. -/
def separators : List (List Char) :=
  [['\n', '\n'], ['\n'], ['.', ' '], ['!', ' '], ['?', ' '], [';', ' '],
    [',', ' '], [' '], []]

/-- `trySplit` (src/unnamed/part_003): try each separator in order;
when splitting produces more than one piece, greedily re-accumulate the
pieces into groups within the token budget; succeed with the first
separator yielding more than one group. -/
def trySplit (target : Nat) : List (List Char) → List Char →
    List (List Char) × Bool
  | [], text => ([text], false)
  | s :: seps, text =>
    let splits := jsSplit s text
    if 1 < splits.length then
      let groups := accumGo s target splits [] []
      if 1 < groups.length then (groups, true) else trySplit target seps text
    else trySplit target seps text

/-- On success every group of `trySplit` is strictly shorter than the
input: there are at least two groups, all non-empty, and their total
length is at most the input's (group boundaries drop separators). -/
theorem trySplit_success (target : Nat) :
    ∀ (seps : List (List Char)) (text : List Char),
      (trySplit target seps text).2 = true →
        ∀ g ∈ (trySplit target seps text).1, g.length < text.length := by
  intro seps
  induction seps with
  | nil =>
    intro text h
    rw [trySplit] at h
    simp at h
  | cons s rest ih =>
    intro text h g hg
    rw [trySplit] at h hg
    by_cases h1 : 1 < (jsSplit s text).length
    · rw [if_pos h1] at h hg
      by_cases h2 : 1 < (accumGo s target (jsSplit s text) [] []).length
      · rw [if_pos h2] at h hg
        have hne := accumGo_mem_ne_nil s target (jsSplit s text) [] []
          (by intro x hx; simp at hx)
        have hsum := accumGo_sumLens_le s target (jsSplit s text) [] []
        have hnil : (if ([] : List Char) = [] then jsSplit s text
            else [] :: jsSplit s text) = jsSplit s text := if_pos rfl
        rw [hnil] at hsum
        have hjoin : (joinSep s (jsSplit s text)).length = text.length := by
          rw [joinSep_jsSplit]
        have hzero : sumLens ([] : List (List Char)) = 0 := rfl
        rw [hjoin, hzero] at hsum
        exact lt_of_lt_of_le
          (mem_length_lt_sumLens _ (by omega) hne g hg) (by omega)
      · rw [if_neg h2] at h hg
        exact ih text h g hg
    · rw [if_neg h1] at h hg
      exact ih text h g hg

/-- `recursiveSplit` (src/unnamed/part_003): return the span whole when
it fits the budget; otherwise split via `trySplit` and recurse into
each group, or — when no separator splits the span — truncate
proportionally (`floor(len * target / tokens)`, exact in `Nat`
division). -/
def recursiveSplit (target : Nat) (text : List Char) : List (List Char) :=
  let tokens := estimateTokens text
  if tokens ≤ target then [text]
  else
    let r := trySplit target separators text
    if hs : r.2 = true then
      (r.1.attach.map fun gp => recursiveSplit target gp.1).flatten
    else [text.take (text.length * target / tokens)]
termination_by text.length
decreasing_by
  exact trySplit_success target separators text hs gp.1 gp.2

/-! ### Recursive token chunker: outer loop (src/unnamed/part_003) -/

/-- `ChunkerOptions` (src/src/chunkers/base.ts). -/
structure ChunkerOptions where
  chunkSize : Nat
  chunkOverlap : Nat
deriving DecidableEq

/-- `textChunks[0] || remainingText`: the first group of the recursive
split, falling back to the whole remaining text when the group list is
empty or its first element is the empty string. -/
def rcChunkText (chunkSize : Nat) (remaining : List Char) : List Char :=
  match recursiveSplit chunkSize remaining with
  | [] => remaining
  | c :: _ => if c = [] then remaining else c

theorem rcChunkText_ne_nil (chunkSize : Nat) (remaining : List Char)
    (h : remaining ≠ []) : rcChunkText chunkSize remaining ≠ [] := by
  unfold rcChunkText
  cases recursiveSplit chunkSize remaining with
  | nil => exact h
  | cons c rest =>
    show (if c = [] then remaining else c) ≠ []
    by_cases hc : c = []
    · rw [if_pos hc]; exact h
    · rw [if_neg hc]; exact hc

/-- `actualEnd = startChar + chunkText.length`. -/
def rcActualEnd (chunkSize : Nat) (text : List Char) (s : Nat) : Nat :=
  s + (rcChunkText chunkSize (text.drop s)).length

/-- The overlap in characters: `overlapRatio = chunkOverlap > 0 ?
min(chunkOverlap / chunkTokens, 0.5) : 0` (the float division yields
`Infinity` when `chunkTokens` is 0, so the `min` is 0.5), then
`overlapChars = floor(len * overlapRatio)`, in exact rational
arithmetic. -/
def overlapCharsOf (chunkOverlap : Nat) (chunkText : List Char) : Nat :=
  let chunkTokens := estimateTokens chunkText
  let ratio : ℚ :=
    if 0 < chunkOverlap then
      if chunkTokens = 0 then 1/2
      else min ((chunkOverlap : ℚ) / (chunkTokens : ℚ)) (1/2)
    else 0
  (⌊(chunkText.length : ℚ) * ratio⌋).toNat

/-- The ratio is capped at one half, so the overlap never exceeds half
the chunk. -/
theorem overlapCharsOf_le_half (chunkOverlap : Nat) (chunkText : List Char) :
    2 * overlapCharsOf chunkOverlap chunkText ≤ chunkText.length := by
  rw [show overlapCharsOf chunkOverlap chunkText =
    (⌊(chunkText.length : ℚ) *
      (if 0 < chunkOverlap then
        if estimateTokens chunkText = 0 then 1/2
        else min ((chunkOverlap : ℚ) / (estimateTokens chunkText : ℚ)) (1/2)
      else 0)⌋).toNat from rfl]
  set tk := estimateTokens chunkText with htk
  set ratio : ℚ :=
    (if 0 < chunkOverlap then
      if tk = 0 then 1/2
      else min ((chunkOverlap : ℚ) / (tk : ℚ)) (1/2)
    else 0) with hratio
  have hr0 : 0 ≤ ratio := by
    rw [hratio]
    by_cases h1 : 0 < chunkOverlap
    · rw [if_pos h1]
      by_cases h2 : tk = 0
      · rw [if_pos h2]; norm_num
      · rw [if_neg h2]
        exact le_min (by positivity) (by norm_num)
    · rw [if_neg h1]
  have hr2 : ratio ≤ 1/2 := by
    rw [hratio]
    by_cases h1 : 0 < chunkOverlap
    · rw [if_pos h1]
      by_cases h2 : tk = 0
      · rw [if_pos h2]
      · rw [if_neg h2]
        exact min_le_right _ _
    · rw [if_neg h1]; norm_num
  set len := chunkText.length with hlen
  have hmono : ⌊(len : ℚ) * ratio⌋ ≤ ⌊(len : ℚ) * (1/2)⌋ :=
    Int.floor_le_floor (mul_le_mul_of_nonneg_left hr2 (by positivity))
  have hhalf : ⌊(len : ℚ) * (1/2)⌋ = ((len / 2 : ℕ) : ℤ) := by
    rw [show (len : ℚ) * (1/2) = ((len : ℕ) : ℚ) / ((2 : ℕ) : ℚ) by
      push_cast; ring]
    rw [Rat.floor_natCast_div_natCast]
    exact (Int.natCast_div len 2).symm
  have htn : (⌊(len : ℚ) * ratio⌋).toNat ≤ ((len / 2 : ℕ) : ℤ).toNat :=
    Int.toNat_le_toNat (hhalf ▸ hmono)
  rw [Int.toNat_natCast] at htn
  omega

/-- The next start offset: `max(startChar + 1, actualEnd -
overlapChars)`, clamped to `actualEnd` when it would not be below it. -/
def rcNext (chunkSize chunkOverlap : Nat) (text : List Char) (s : Nat) : Nat :=
  let actualEnd := rcActualEnd chunkSize text s
  let overlapChars :=
    overlapCharsOf chunkOverlap (rcChunkText chunkSize (text.drop s))
  let nextStart := max (s + 1) (actualEnd - overlapChars)
  if actualEnd ≤ nextStart then actualEnd else nextStart

theorem rcActualEnd_progress (chunkSize : Nat) (text : List Char) (s : Nat)
    (h : s < text.length) : s < rcActualEnd chunkSize text s := by
  unfold rcActualEnd
  have hne : text.drop s ≠ [] := by
    intro hc
    rw [List.drop_eq_nil_iff] at hc
    omega
  have := List.length_pos.mpr (rcChunkText_ne_nil chunkSize (text.drop s) hne)
  omega

theorem rcNext_progress (chunkSize chunkOverlap : Nat) (text : List Char)
    (s : Nat) (h : s < text.length) :
    s < rcNext chunkSize chunkOverlap text s := by
  unfold rcNext
  by_cases hb : rcActualEnd chunkSize text s ≤
      max (s + 1) (rcActualEnd chunkSize text s -
        overlapCharsOf chunkOverlap (rcChunkText chunkSize (text.drop s)))
  · rw [if_pos hb]
    exact rcActualEnd_progress chunkSize text s h
  · rw [if_neg hb]
    omega

/-! ### Line numbers (shared by both chunkers) -/

def lineStartsGo : Nat → List (List Char) → List Nat
  | _, [] => []
  | pos, l :: rest => (pos + l.length + 1) :: lineStartsGo (pos + l.length + 1) rest

/-- The pre-computed line-start offsets: position 0 followed by the
cumulative `line.length + 1` positions of `text.split("\n")`. -/
def lineStartsOf (text : List Char) : List Nat :=
  0 :: lineStartsGo 0 (jsSplit ['\n'] text)

/-- The binary-search loop of `getLineNumber`.  The fuel (always called
with `ls.length`, more than the iteration count of a halving search)
makes the recursion structural; on exhaustion the source's post-loop
fallback `max(0, lineStarts.length - 2)` is returned. -/
def getLineGo (ls : List Nat) (p : Nat) : Nat → Int → Int → Nat
  | 0, _, _ => ls.length - 2
  | fuel + 1, left, right =>
    if left ≤ right then
      let mid := (left + right) / 2
      let lineStart := ls.getD mid.toNat 0
      let nextLineStart := ls.getD (mid.toNat + 1) 0
      if lineStart ≤ p ∧ p < nextLineStart then mid.toNat
      else if p < lineStart then getLineGo ls p fuel left (mid - 1)
      else getLineGo ls p fuel (mid + 1) right
    else ls.length - 2

/-- `getLineNumber` (identical in both chunkers and src/src/parser.ts):
0 for a one-entry table, the last line when the position is at or past
the final line start, otherwise binary search. -/
def getLineNumber (ls : List Nat) (p : Nat) : Nat :=
  if ls.length ≤ 1 then 0
  else if ls.getD (ls.length - 1) 0 ≤ p then ls.length - 2
  else getLineGo ls p ls.length 0 ((ls.length : Int) - 2)

/-! ### RecursiveTokenChunker.chunk (src/unnamed/part_003 lines 124-168) -/

/-- The chunk record emitted at start offset `s` (skipped when the
trimmed text is empty). -/
def rcEmit (path : List Char) (ls : List Nat) (chunkSize : Nat)
    (text : List Char) (s : Nat) : List DocumentChunk :=
  if jsTrim (rcChunkText chunkSize (text.drop s)) = [] then []
  else [⟨jsTrim (rcChunkText chunkSize (text.drop s)), path,
    getLineNumber ls s + 1,
    getLineNumber ls (rcActualEnd chunkSize text s - 1) + 1,
    s, rcActualEnd chunkSize text s⟩]

/-- The outer `while` of `RecursiveTokenChunker.chunk`, written with the
chunk accumulator turned into output consing and an explicit iteration
budget (`none` = budget exhausted; the budget `text.length` is always
sufficient because every iteration advances the start offset, which is
the content of C5).  The two `some` returns mirror the two `break`s of
the source. -/
def recursiveChunkLoop (path text : List Char) (ls : List Nat)
    (chunkSize chunkOverlap : Nat) : Nat → Nat → Option (List DocumentChunk)
  | 0, s => if s < text.length then none else some []
  | fuel + 1, s =>
    if s < text.length then
      if text.length ≤ rcActualEnd chunkSize text s then
        some (rcEmit path ls chunkSize text s)
      else if text.length ≤ rcNext chunkSize chunkOverlap text s then
        some (rcEmit path ls chunkSize text s)
      else
        match recursiveChunkLoop path text ls chunkSize chunkOverlap fuel
            (rcNext chunkSize chunkOverlap text s) with
        | none => none
        | some rest => some (rcEmit path ls chunkSize text s ++ rest)
    else some []

/-- `RecursiveTokenChunker.chunk`: empty or whitespace-only text yields
no chunks; otherwise the loop from offset 0. -/
def recursiveChunk (path text : List Char) (opts : ChunkerOptions) :
    List DocumentChunk :=
  if text = [] ∨ jsTrim text = [] then []
  else
    (recursiveChunkLoop path text (lineStartsOf text)
      opts.chunkSize opts.chunkOverlap text.length 0).getD []

theorem recursiveChunkLoop_total (path text : List Char) (ls : List Nat)
    (chunkSize chunkOverlap : Nat) :
    ∀ (fuel s : Nat), text.length - s ≤ fuel →
      (recursiveChunkLoop path text ls chunkSize chunkOverlap fuel s).isSome := by
  intro fuel
  induction fuel with
  | zero =>
    intro s hs
    rw [recursiveChunkLoop, if_neg (by omega)]
    rfl
  | succ fuel ih =>
    intro s hs
    by_cases hlt : s < text.length
    · rw [recursiveChunkLoop, if_pos hlt]
      by_cases hend : text.length ≤ rcActualEnd chunkSize text s
      · rw [if_pos hend]; rfl
      · rw [if_neg hend]
        by_cases hs2 : text.length ≤ rcNext chunkSize chunkOverlap text s
        · rw [if_pos hs2]; rfl
        · rw [if_neg hs2]
          have hprog := rcNext_progress chunkSize chunkOverlap text s hlt
          have hrec := ih (rcNext chunkSize chunkOverlap text s) (by omega)
          cases hrescase : recursiveChunkLoop path text ls chunkSize chunkOverlap
              fuel (rcNext chunkSize chunkOverlap text s) with
          | none => rw [hrescase] at hrec; simp at hrec
          | some rest => rfl
    · rw [recursiveChunkLoop, if_neg hlt]
      rfl

/-- C5: the recursive token chunker terminates on every input: each
iteration of its outer loop advances the start offset by at least one
character (`max(currentStart + 1, chunkEnd - overlapChars)`, clamped to
the chunk end; the first group is never empty, by the
`textChunks[0] || remainingText` fallback, so `chunkEnd >
currentStart`), hence a budget of `text.length` iterations always
completes — including on a single long unbreakable token, where the
proportional-truncation fallback still yields a non-empty first
group. -/
theorem recursiveChunker_terminates (path text : List Char)
    (opts : ChunkerOptions) :
    (recursiveChunkLoop path text (lineStartsOf text)
      opts.chunkSize opts.chunkOverlap text.length 0).isSome :=
  recursiveChunkLoop_total path text (lineStartsOf text)
    opts.chunkSize opts.chunkOverlap text.length 0 (by omega)

theorem rcEmit_fields (path : List Char) (ls : List Nat) (chunkSize : Nat)
    (text : List Char) (s : Nat) :
    ∀ u ∈ rcEmit path ls chunkSize text s,
      u.startChar = s ∧ u.endChar = rcActualEnd chunkSize text s := by
  intro u hu
  unfold rcEmit at hu
  by_cases ht : jsTrim (rcChunkText chunkSize (text.drop s)) = []
  · rw [if_pos ht] at hu
    simp at hu
  · rw [if_neg ht] at hu
    rw [List.mem_singleton.mp hu]
    exact ⟨rfl, rfl⟩

theorem rcNext_overlap_bound (chunkSize chunkOverlap : Nat) (text : List Char)
    (s b : Nat) (hb : rcNext chunkSize chunkOverlap text s ≤ b) :
    2 * (rcActualEnd chunkSize text s - b) ≤ rcActualEnd chunkSize text s - s := by
  have hhalf :=
    overlapCharsOf_le_half chunkOverlap (rcChunkText chunkSize (text.drop s))
  have hae : rcActualEnd chunkSize text s =
      s + (rcChunkText chunkSize (text.drop s)).length := rfl
  unfold rcNext at hb
  by_cases hcl : rcActualEnd chunkSize text s ≤
      max (s + 1) (rcActualEnd chunkSize text s -
        overlapCharsOf chunkOverlap (rcChunkText chunkSize (text.drop s)))
  · rw [if_pos hcl] at hb
    omega
  · rw [if_neg hcl] at hb
    have hmax : rcActualEnd chunkSize text s -
        overlapCharsOf chunkOverlap (rcChunkText chunkSize (text.drop s)) ≤ b :=
      le_trans (le_max_right _ _) hb
    omega

theorem recursiveChunkLoop_chain (path text : List Char) (ls : List Nat)
    (chunkSize chunkOverlap : Nat) :
    ∀ (fuel s : Nat) (r : List DocumentChunk),
      recursiveChunkLoop path text ls chunkSize chunkOverlap fuel s = some r →
        (∀ u ∈ r, s ≤ u.startChar) ∧
          List.Chain'
            (fun a b => 2 * (a.endChar - b.startChar) ≤ a.endChar - a.startChar)
            r := by
  intro fuel
  induction fuel with
  | zero =>
    intro s r h
    rw [recursiveChunkLoop] at h
    by_cases hlt : s < text.length
    · rw [if_pos hlt] at h
      simp at h
    · rw [if_neg hlt] at h
      cases h
      exact ⟨by simp, List.chain'_nil⟩
  | succ fuel ih =>
    intro s r h
    rw [recursiveChunkLoop] at h
    by_cases hlt : s < text.length
    · rw [if_pos hlt] at h
      have hemit : ∀ u ∈ rcEmit path ls chunkSize text s, s ≤ u.startChar :=
        fun u hu => le_of_eq (rcEmit_fields path ls chunkSize text s u hu).1.symm
      have hemitchain : List.Chain'
          (fun a b : DocumentChunk =>
            2 * (a.endChar - b.startChar) ≤ a.endChar - a.startChar)
          (rcEmit path ls chunkSize text s) := by
        unfold rcEmit
        by_cases ht : jsTrim (rcChunkText chunkSize (text.drop s)) = []
        · rw [if_pos ht]; exact List.chain'_nil
        · rw [if_neg ht]; exact List.chain'_singleton _
      by_cases hend : text.length ≤ rcActualEnd chunkSize text s
      · rw [if_pos hend] at h
        cases h
        exact ⟨hemit, hemitchain⟩
      · rw [if_neg hend] at h
        by_cases hs2 : text.length ≤ rcNext chunkSize chunkOverlap text s
        · rw [if_pos hs2] at h
          cases h
          exact ⟨hemit, hemitchain⟩
        · rw [if_neg hs2] at h
          cases hres : recursiveChunkLoop path text ls chunkSize chunkOverlap
              fuel (rcNext chunkSize chunkOverlap text s) with
          | none => rw [hres] at h; simp at h
          | some rest =>
            rw [hres] at h
            cases h
            obtain ⟨ihmem, ihchain⟩ := ih (rcNext chunkSize chunkOverlap text s) rest hres
            have hprog := rcNext_progress chunkSize chunkOverlap text s hlt
            constructor
            · intro u hu
              rcases List.mem_append.mp hu with hu | hu
              · exact hemit u hu
              · exact le_trans (le_of_lt hprog) (ihmem u hu)
            · unfold rcEmit
              by_cases ht : jsTrim (rcChunkText chunkSize (text.drop s)) = []
              · rw [if_pos ht]
                rw [List.nil_append]
                exact ihchain
              · rw [if_neg ht, List.singleton_append]
                rw [List.chain'_cons']
                refine ⟨?_, ihchain⟩
                intro b hb
                have hbmem : b ∈ rest := List.mem_of_mem_head? hb
                exact rcNext_overlap_bound chunkSize chunkOverlap text s b.startChar
                  (ihmem b hbmem)
    · rw [if_neg hlt] at h
      cases h
      exact ⟨by simp, List.chain'_nil⟩

/-! ### SimpleChunker.chunk (src/src/chunkers/simple.ts), identical to
`chunkText` (src/src/parser.ts lines 88-202) -/

def isSentenceEnd (c : Char) : Bool := c == '.' || c == '!' || c == '?'

/-- First match index of the regex `[.!?](?:\s+|$)` in the search
window: the earliest sentence-ending punctuation followed by whitespace
or the end of the window. -/
def findSentenceEnd : List Char → Option Nat
  | [] => none
  | [c] => if isSentenceEnd c then some 0 else none
  | c :: d :: rest =>
    if isSentenceEnd c && isJsWhitespace d then some 0
    else
      match findSentenceEnd (d :: rest) with
      | some i => some (i + 1)
      | none => none

/-- The regex word class `\w` = `[a-zA-Z0-9_]`. -/
def isWordChar (c : Char) : Bool :=
  ('a'.toNat ≤ c.toNat && c.toNat ≤ 'z'.toNat) ||
  ('A'.toNat ≤ c.toNat && c.toNat ≤ 'Z'.toNat) ||
  ('0'.toNat ≤ c.toNat && c.toNat ≤ '9'.toNat) || c == '_'

def toLowerAscii (c : Char) : Char :=
  if 'A'.toNat ≤ c.toNat && c.toNat ≤ 'Z'.toNat then Char.ofNat (c.toNat + 32)
  else c

/-- The abbreviation alternatives of the lookbehind regex. -/
def abbrevs : List (List Char) :=
  [("Dr".toList), ("Mr".toList), ("Mrs".toList), ("Ms".toList),
   ("Prof".toList), ("Sr".toList), ("Jr".toList), ("vs".toList),
   ("etc".toList), ("Inc".toList), ("Ltd".toList), ("Corp".toList),
   ("St".toList), ("Ave".toList), ("Blvd".toList), ("Rd".toList)]

/-- `/\b(Dr|Mr|...)\.$/i.test(t)`: `t` ends with an abbreviation
followed by a period, case-insensitively, with a word boundary before
the abbreviation (start of string or a non-word character). -/
def matchesAbbrev (t : List Char) : Bool :=
  abbrevs.any fun ab =>
    decide ((ab ++ ['.']).length ≤ t.length) &&
      ((t.drop (t.length - (ab ++ ['.']).length)).map toLowerAscii ==
        (ab ++ ['.']).map toLowerAscii) &&
      (decide (t.length = (ab ++ ['.']).length) ||
        !isWordChar (t.getD (t.length - (ab ++ ['.']).length - 1) ' '))

/-- `endChar = Math.min(startChar + chunkSize, text.length)`. -/
def scEndChar (chunkSize : Nat) (text : List Char) (s : Nat) : Nat :=
  min (s + chunkSize) text.length

/-- `searchStart = Math.max(startChar, endChar - 100)` (the `Nat`
subtraction is the `Math.max(0, ·)` clamp). -/
def scSearchStart (chunkSize : Nat) (text : List Char) (s : Nat) : Nat :=
  max s (scEndChar chunkSize text s - 100)

/-- The sentence-boundary adjustment: when the chunk does not reach the
end of the text, search the last 100 characters for a sentence end; on
a match not preceded by an abbreviation, cut at `matchPos + 1`
(`beforeMatch` is the up-to-3-character lookbehind `text.slice(max(0,
matchPos - 3), matchPos)`). -/
def scActualEnd (chunkSize : Nat) (text : List Char) (s : Nat) : Nat :=
  if scEndChar chunkSize text s < text.length then
    match findSentenceEnd
        ((text.take (scEndChar chunkSize text s)).drop
          (scSearchStart chunkSize text s)) with
    | some i =>
      if matchesAbbrev (jsTrim
          ((text.take (scSearchStart chunkSize text s + i)).drop
            (scSearchStart chunkSize text s + i - 3))) then
        scEndChar chunkSize text s
      else scSearchStart chunkSize text s + i + 1
    | none => scEndChar chunkSize text s
  else scEndChar chunkSize text s

/-- The next start offset: `nextStart = max(0, actualEnd -
chunkOverlap)`, `startChar = max(startChar + 1, nextStart)`, clamped to
`actualEnd` when it reaches it. -/
def scNext (chunkSize chunkOverlap : Nat) (text : List Char) (s : Nat) : Nat :=
  if scActualEnd chunkSize text s ≤
      max (s + 1) (scActualEnd chunkSize text s - chunkOverlap) then
    scActualEnd chunkSize text s
  else max (s + 1) (scActualEnd chunkSize text s - chunkOverlap)

/-- The chunk record emitted at offset `s` (skipped when the trimmed
text is empty). -/
def scEmit (path : List Char) (ls : List Nat) (chunkSize : Nat)
    (text : List Char) (s : Nat) : List DocumentChunk :=
  if jsTrim ((text.take (scActualEnd chunkSize text s)).drop s) = [] then []
  else [⟨jsTrim ((text.take (scActualEnd chunkSize text s)).drop s), path,
    getLineNumber ls s + 1,
    getLineNumber ls (scActualEnd chunkSize text s - 1) + 1,
    s, scActualEnd chunkSize text s⟩]

/-- The `while` of `SimpleChunker.chunk`, accumulator turned into
output consing, with an iteration budget: every iteration advances the
start offset when `chunkSize ≥ 1` (the configuration gates require
this), so the budget `text.length + 1` is always sufficient there;
with `chunkSize = 0` the source loops forever and the budget simply
ends the list. -/
def simpleChunkLoop (path text : List Char) (ls : List Nat)
    (chunkSize chunkOverlap : Nat) : Nat → Nat → List DocumentChunk
  | 0, _ => []
  | fuel + 1, s =>
    if s < text.length then
      scEmit path ls chunkSize text s ++
        simpleChunkLoop path text ls chunkSize chunkOverlap fuel
          (scNext chunkSize chunkOverlap text s)
    else []

/-- `SimpleChunker.chunk` / `chunkText`: empty or whitespace-only text
yields no chunks; otherwise the loop from offset 0. -/
def simpleChunk (path text : List Char) (opts : ChunkerOptions) :
    List DocumentChunk :=
  if text = [] ∨ jsTrim text = [] then []
  else
    simpleChunkLoop path text (lineStartsOf text)
      opts.chunkSize opts.chunkOverlap (text.length + 1) 0

theorem scEmit_fields (path : List Char) (ls : List Nat) (chunkSize : Nat)
    (text : List Char) (s : Nat) :
    ∀ u ∈ scEmit path ls chunkSize text s,
      u.startChar = s ∧ u.endChar = scActualEnd chunkSize text s := by
  intro u hu
  unfold scEmit at hu
  by_cases ht : jsTrim ((text.take (scActualEnd chunkSize text s)).drop s) = []
  · rw [if_pos ht] at hu
    simp at hu
  · rw [if_neg ht] at hu
    rw [List.mem_singleton.mp hu]
    exact ⟨rfl, rfl⟩

theorem scActualEnd_ge (chunkSize : Nat) (text : List Char) (s : Nat)
    (h : s < text.length) : s ≤ scActualEnd chunkSize text s := by
  have hend : s ≤ scEndChar chunkSize text s := by
    unfold scEndChar
    omega
  have hss : s ≤ scSearchStart chunkSize text s := le_max_left _ _
  unfold scActualEnd
  split
  · split
    · split
      · exact hend
      · omega
    · exact hend
  · exact hend

theorem scNext_ge (chunkSize chunkOverlap : Nat) (text : List Char) (s : Nat)
    (h : s < text.length) : s ≤ scNext chunkSize chunkOverlap text s := by
  unfold scNext
  by_cases hcl : scActualEnd chunkSize text s ≤
      max (s + 1) (scActualEnd chunkSize text s - chunkOverlap)
  · rw [if_pos hcl]
    exact scActualEnd_ge chunkSize text s h
  · rw [if_neg hcl]
    omega

theorem scNext_overlap_bound (chunkSize chunkOverlap : Nat) (text : List Char)
    (s b : Nat) (hb : scNext chunkSize chunkOverlap text s ≤ b) :
    scActualEnd chunkSize text s - b ≤ chunkOverlap := by
  unfold scNext at hb
  by_cases hcl : scActualEnd chunkSize text s ≤
      max (s + 1) (scActualEnd chunkSize text s - chunkOverlap)
  · rw [if_pos hcl] at hb
    omega
  · rw [if_neg hcl] at hb
    have : scActualEnd chunkSize text s - chunkOverlap ≤ b :=
      le_trans (le_max_right _ _) hb
    omega

theorem simpleChunkLoop_chain (path text : List Char) (ls : List Nat)
    (chunkSize chunkOverlap : Nat) :
    ∀ (fuel s : Nat),
      (∀ u ∈ simpleChunkLoop path text ls chunkSize chunkOverlap fuel s,
        s ≤ u.startChar) ∧
      List.Chain' (fun a b => a.endChar - b.startChar ≤ chunkOverlap)
        (simpleChunkLoop path text ls chunkSize chunkOverlap fuel s) := by
  intro fuel
  induction fuel with
  | zero =>
    intro s
    rw [simpleChunkLoop]
    exact ⟨by simp, List.chain'_nil⟩
  | succ fuel ih =>
    intro s
    rw [simpleChunkLoop]
    by_cases hlt : s < text.length
    · rw [if_pos hlt]
      obtain ⟨ihmem, ihchain⟩ := ih (scNext chunkSize chunkOverlap text s)
      have hemit : ∀ u ∈ scEmit path ls chunkSize text s, s ≤ u.startChar :=
        fun u hu => le_of_eq (scEmit_fields path ls chunkSize text s u hu).1.symm
      constructor
      · intro u hu
        rcases List.mem_append.mp hu with hu | hu
        · exact hemit u hu
        · exact le_trans (scNext_ge chunkSize chunkOverlap text s hlt) (ihmem u hu)
      · unfold scEmit
        by_cases ht : jsTrim ((text.take (scActualEnd chunkSize text s)).drop s) = []
        · rw [if_pos ht, List.nil_append]
          exact ihchain
        · rw [if_neg ht, List.singleton_append, List.chain'_cons']
          refine ⟨?_, ihchain⟩
          intro b hb
          exact scNext_overlap_bound chunkSize chunkOverlap text s b.startChar
            (ihmem b (List.mem_of_mem_head? hb))
    · rw [if_neg hlt]
      exact ⟨by simp, List.chain'_nil⟩

/-- C6 (amended): for every input and options, consecutive units of the
recursive token chunker overlap by at most 50% of the earlier unit's
span (`endChar - startChar`) — the overlap ratio is capped at 0.5 — while
consecutive units of the simple character chunker overlap by at most
`chunkOverlap` characters, which can exceed 50% of the earlier unit's
span. -/
theorem chunker_overlap_bounds (path text : List Char) (opts : ChunkerOptions) :
    List.Chain'
      (fun a b => 2 * (a.endChar - b.startChar) ≤ a.endChar - a.startChar)
      (recursiveChunk path text opts) ∧
    List.Chain' (fun a b => a.endChar - b.startChar ≤ opts.chunkOverlap)
      (simpleChunk path text opts) := by
  constructor
  · unfold recursiveChunk
    split
    · exact List.chain'_nil
    · cases hres : recursiveChunkLoop path text (lineStartsOf text)
          opts.chunkSize opts.chunkOverlap text.length 0 with
      | none => simp
      | some r =>
        simp only [Option.getD_some]
        exact (recursiveChunkLoop_chain path text (lineStartsOf text)
          opts.chunkSize opts.chunkOverlap text.length 0 r hres).2
  · unfold simpleChunk
    split
    · exact List.chain'_nil
    · exact (simpleChunkLoop_chain path text (lineStartsOf text)
        opts.chunkSize opts.chunkOverlap (text.length + 1) 0).2

/-- C6 (counterexample): with `chunkSize = 5`, `chunkOverlap = 4`
(valid options: overlap < size) on six letters, the simple chunker's
first two units span offsets [0, 5) and [1, 6): their overlap is 4
characters, more than 50% of the earlier unit's 5-character length. -/
theorem simpleChunker_overlap_exceeds_half :
    ((simpleChunk ("f.md".toList) ("aaaaaa".toList) ⟨5, 4⟩).map
        fun c => (c.startChar, c.endChar)) =
      [(0, 5), (1, 6), (2, 6), (3, 6), (4, 6), (5, 6)] ∧
      ¬ 2 * (5 - 1) ≤ 5 - 0 := by
  constructor
  · simp [simpleChunk, simpleChunkLoop, scEmit, scNext, scActualEnd,
      scEndChar, scSearchStart, findSentenceEnd, isSentenceEnd,
      isJsWhitespace, jsTrim, matchesAbbrev]
  · decide

/-- C8 (counterexample): chunkSize 5 with chunkOverlap 6 ≥ 5 passes
every check of the CLI `index` gate — the only validation in the
current pipeline — and the chunker then runs over the configuration,
producing units; no configuration error is raised before (or after)
chunking work begins. -/
theorem cliGate_accepts_overlap_ge_size :
    cliValidateIndexOptions 5 6 1 = .ok () ∧ (5 : Int) ≤ 6 ∧
      ((simpleChunk ("f.md".toList) ("aaaaaaaa".toList) ⟨5, 6⟩).map
          fun c => (c.startChar, c.endChar)) =
        [(0, 5), (1, 6), (2, 7), (3, 8), (4, 8), (5, 8), (6, 8), (7, 8)] := by
  refine ⟨by rfl, by decide, ?_⟩
  simp [simpleChunk, simpleChunkLoop, scEmit, scNext, scActualEnd,
    scEndChar, scSearchStart, findSentenceEnd, isSentenceEnd,
    isJsWhitespace, jsTrim, matchesAbbrev]

end QuickRAG
